import Mathlib

/-!
# Verification of the mulib cooperative scheduler core

Shallow embedding of `src/core/mu_sched.c` (singleton scheduler), of the
intrusive doubly-linked list `mu_dlist` (pointer-level model of
`src/unnamed/part_005`), and of the collaborators whose implementations are
not present in the source tree (`mu_time`, `mu_spsc`, the task time field),
which are modelled from the specification.

Conventions:
* Tasks are identified by `TaskId` (a natural number standing for the task's
  address); the task's mutable `time` field is a map carried in the
  scheduler state.
* The main queue is the list of task ids in queue order (head = soonest).
  A task's intrusive link is "linked" exactly when the task is in the main
  queue, which is the only list the scheduler links tasks into.
* The clock is external (`clock_fn`), so every operation that reads the
  clock takes `now` as an explicit argument.
-/

namespace Mulib

/-! ## Time

Modelled from the spec: the implementation of `mu_time` (included via
`mu_platform/mu_time.h`) is not in the source tree.  Spec §3: "an opaque
unsigned integral timestamp T and a signed duration D.  The order relation
'A precedes B' is defined over a rolling window (modular comparison: B - A
interpreted as a signed value is positive).  'A follows B' is 'B precedes
A'.  Equal times neither precede nor follow."  We take a 32-bit timestamp;
the comparison window is half the timestamp range. -/

def TIME_MOD : Nat := 2 ^ 32

def HALF_WINDOW : Nat := 2 ^ 31

/-- Wrap-safe difference `(a - b) mod 2^32`, computed on naturals. -/
def timeSub (a b : Nat) : Nat := (a + (TIME_MOD - b % TIME_MOD)) % TIME_MOD

/-- Modelled from the spec: `mu_time_precedes(t1, t2)` — true when
`t2 - t1`, interpreted as a signed 32-bit value, is positive. -/
def mu_time_precedes (t1 t2 : Nat) : Bool :=
  decide (0 < timeSub t2 t1 ∧ timeSub t2 t1 < HALF_WINDOW)

/-- Modelled from the spec: `mu_time_follows(t1, t2) = mu_time_precedes(t2, t1)`. -/
def mu_time_follows (t1 t2 : Nat) : Bool := mu_time_precedes t2 t1

/-- Modelled from the spec: `mu_time_offset(t, d)` adds a signed duration to
a timestamp with two's-complement wrap-around. -/
def mu_time_offset (t : Nat) (d : Int) : Nat :=
  (((t : Int) + d) % (TIME_MOD : Int)).toNat

/-- A time never precedes itself (equal times neither precede nor follow). -/
theorem mu_time_precedes_self (a : Nat) : mu_time_precedes a a = false := by
  unfold mu_time_precedes timeSub TIME_MOD HALF_WINDOW
  simp only [decide_eq_false_iff_not]
  omega

/-- "Precedes" is asymmetric. -/
theorem mu_time_precedes_asymm {a b : Nat} (h : mu_time_precedes a b = true) :
    mu_time_precedes b a = false := by
  unfold mu_time_precedes timeSub TIME_MOD HALF_WINDOW at *
  simp only [decide_eq_true_eq] at h
  simp only [decide_eq_false_iff_not]
  omega

/-- A timestamp reduced mod `TIME_MOD` never follows the unreduced value:
`timeSub (n % TIME_MOD) n = 0`. -/
theorem timeSub_mod_self (n : Nat) : timeSub (n % TIME_MOD) n = 0 := by
  unfold timeSub TIME_MOD
  omega

/-- A stored timestamp equal to the clock value does not follow it. -/
theorem mu_time_follows_mod_self (n : Nat) :
    mu_time_follows (n % TIME_MOD) n = false := by
  unfold mu_time_follows mu_time_precedes
  rw [timeSub_mod_self]
  simp

/-- `mu_time_offset` always produces a reduced timestamp. -/
theorem mu_time_offset_lt (t : Nat) (d : Int) : mu_time_offset t d < TIME_MOD := by
  unfold mu_time_offset TIME_MOD
  have h1 : 0 ≤ ((t : Int) + d) % ((2 : Int) ^ 32) :=
    Int.emod_nonneg _ (by norm_num)
  have h2 : ((t : Int) + d) % ((2 : Int) ^ 32) < (2 : Int) ^ 32 :=
    Int.emod_lt_of_pos _ (by norm_num)
  omega

/-- On a half-window (all values within `HALF_WINDOW` of a common `base`),
"precedes" coincides with `<` on the shifted coordinates. -/
theorem mu_time_precedes_iff_lt {base a b : Nat}
    (ha : timeSub a base < HALF_WINDOW) (hb : timeSub b base < HALF_WINDOW) :
    mu_time_precedes a b = true ↔ timeSub a base < timeSub b base := by
  unfold mu_time_precedes timeSub TIME_MOD HALF_WINDOW at *
  simp only [decide_eq_true_eq]
  omega

/-! ## Single-producer / single-consumer ring

Modelled from the spec: the implementation of `mu_spsc` is not in the
source tree (only `mu_sched.c`'s calls to it are).  Spec §4.2: a
fixed-capacity ring with producer/consumer indices in modular arithmetic;
`put` fails with FULL when `(producer+1) mod capacity == consumer` (one
slot reserved, so usable slots = capacity − 1); `get` fails with EMPTY when
`producer == consumer`.  Items here are task references (`TaskId`). -/

abbrev TaskId := Nat

structure Spsc where
  capacity : Nat
  store : Nat → TaskId
  putIdx : Nat
  getIdx : Nat

/-- Modelled from the spec: `mu_spsc_put`; `none` is the FULL error. -/
def mu_spsc_put (q : Spsc) (item : TaskId) : Option Spsc :=
  if (q.putIdx + 1) % q.capacity = q.getIdx then none
  else some { q with
    store := fun i => if i = q.putIdx then item else q.store i,
    putIdx := (q.putIdx + 1) % q.capacity }

/-- Modelled from the spec: `mu_spsc_get`; `none` is the EMPTY error. -/
def mu_spsc_get (q : Spsc) : Option (TaskId × Spsc) :=
  if q.putIdx = q.getIdx then none
  else some (q.store q.getIdx, { q with getIdx := (q.getIdx + 1) % q.capacity })

/-- Well-formedness of the ring indices (established by `mu_spsc_init` and
preserved by put/get). -/
def Spsc.Wf (q : Spsc) : Prop :=
  0 < q.capacity ∧ q.putIdx < q.capacity ∧ q.getIdx < q.capacity

instance (q : Spsc) : Decidable q.Wf :=
  inferInstanceAs (Decidable (0 < q.capacity ∧ q.putIdx < q.capacity ∧ q.getIdx < q.capacity))

/-- Number of items currently in the ring. -/
def Spsc.count (q : Spsc) : Nat :=
  if q.getIdx ≤ q.putIdx then q.putIdx - q.getIdx
  else q.putIdx + q.capacity - q.getIdx

/-- The items in the ring, oldest (next to be consumed) first. -/
def Spsc.contents (q : Spsc) : List TaskId :=
  (List.range q.count).map (fun i => q.store ((q.getIdx + i) % q.capacity))

theorem Spsc.count_lt {q : Spsc} (h : q.Wf) : q.count < q.capacity := by
  obtain ⟨h1, h2, h3⟩ := h
  unfold Spsc.count
  split <;> omega

/-- Successor of an in-range index, mod the capacity: wraps to 0 exactly at
the capacity boundary. -/
theorem mod_succ_eq {g c : Nat} (h : g < c) :
    (g + 1) % c = if g + 1 = c then 0 else g + 1 := by
  split
  · next heq => rw [heq, Nat.mod_self]
  · next hne => exact Nat.mod_eq_of_lt (by omega)

/-- `get` on a nonempty well-formed ring returns the oldest item; the
remaining contents are the tail. -/
theorem mu_spsc_get_spec {q : Spsc} (hwf : q.Wf) (hne : q.putIdx ≠ q.getIdx) :
    ∃ q', mu_spsc_get q = some (q.store q.getIdx, q') ∧ q'.Wf ∧
      q'.count = q.count - 1 ∧ 0 < q.count ∧
      q.contents = q.store q.getIdx :: q'.contents ∧
      q'.putIdx = q.putIdx ∧ q'.capacity = q.capacity ∧ q'.store = q.store := by
  obtain ⟨h1, h2, h3⟩ := hwf
  have hmod := mod_succ_eq h3
  refine ⟨{ q with getIdx := (q.getIdx + 1) % q.capacity }, ?_, ⟨h1, h2, Nat.mod_lt _ h1⟩, ?_, ?_, ?_, rfl, rfl, rfl⟩
  · unfold mu_spsc_get
    simp [hne]
  · show Spsc.count _ = _
    unfold Spsc.count
    simp only
    rw [hmod]
    split <;> split <;> split <;> omega
  · unfold Spsc.count
    split <;> omega
  · show Spsc.contents _ = _ :: Spsc.contents _
    unfold Spsc.contents
    simp only
    have hcount : q.count = (Spsc.count { q with getIdx := (q.getIdx + 1) % q.capacity }) + 1 := by
      unfold Spsc.count
      simp only
      rw [hmod]
      split <;> split <;> split <;> omega
    rw [hcount, List.range_succ_eq_map, List.map_cons, List.map_map]
    congr 1
    · congr 1
      rw [Nat.add_zero]
      exact Nat.mod_eq_of_lt h3
    · apply List.map_congr_left
      intro i _
      simp only [Function.comp_apply]
      rw [Nat.mod_add_mod]
      have harg : q.getIdx + 1 + i = q.getIdx + Nat.succ i := by omega
      rw [harg]

/-- `get` on an empty ring fails (EMPTY). -/
theorem mu_spsc_get_empty {q : Spsc} (h : q.putIdx = q.getIdx) :
    mu_spsc_get q = none := by
  unfold mu_spsc_get
  simp [h]

/-- An empty well-formed ring has no contents. -/
theorem Spsc.count_empty {q : Spsc} (h : q.putIdx = q.getIdx) : q.count = 0 := by
  unfold Spsc.count
  split <;> omega

/-- `put` fails exactly when the ring already holds `capacity − 1` items. -/
theorem mu_spsc_put_full_iff {q : Spsc} (hwf : q.Wf) (item : TaskId) :
    mu_spsc_put q item = none ↔ q.count = q.capacity - 1 := by
  obtain ⟨h1, h2, h3⟩ := hwf
  have hmod := mod_succ_eq h2
  unfold mu_spsc_put Spsc.count
  rw [hmod]
  by_cases hfull : (if q.putIdx + 1 = q.capacity then 0 else q.putIdx + 1) = q.getIdx
  · rw [if_pos hfull]
    constructor
    · intro _
      split at hfull <;> split <;> omega
    · intro _
      rfl
  · rw [if_neg hfull]
    constructor
    · intro h
      simp at h
    · intro hcnt
      exfalso
      apply hfull
      by_cases hpc : q.putIdx + 1 = q.capacity
      · rw [if_pos hpc]
        split at hcnt <;> omega
      · rw [if_neg hpc]
        split at hcnt <;> omega

/-- Successful `put` appends the item to the ring contents. -/
theorem mu_spsc_put_spec {q : Spsc} (hwf : q.Wf) (item : TaskId)
    (hroom : q.count < q.capacity - 1) :
    ∃ q', mu_spsc_put q item = some q' ∧ q'.Wf ∧
      q'.count = q.count + 1 ∧ q'.contents = q.contents ++ [item] ∧
      q'.getIdx = q.getIdx ∧ q'.capacity = q.capacity := by
  obtain ⟨h1, h2, h3⟩ := hwf
  have hmod := mod_succ_eq h2
  have hcountlt : q.count < q.capacity - 1 := hroom
  have hnotfull : ¬ ((q.putIdx + 1) % q.capacity = q.getIdx) := by
    unfold Spsc.count at hcountlt
    rw [hmod]
    split at hcountlt <;> split <;> omega
  have hput : (q.getIdx + q.count) % q.capacity = q.putIdx := by
    unfold Spsc.count
    split
    · rw [Nat.mod_eq_of_lt (by omega)]
      omega
    · have harg : q.getIdx + (q.putIdx + q.capacity - q.getIdx) = q.putIdx + q.capacity := by
        omega
      rw [harg, Nat.add_mod_right]
      exact Nat.mod_eq_of_lt h2
  have hcnt : (Spsc.count { q with
      store := fun i => if i = q.putIdx then item else q.store i,
      putIdx := (q.putIdx + 1) % q.capacity }) = q.count + 1 := by
    unfold Spsc.count at hcountlt ⊢
    simp only
    rw [hmod]
    by_cases hpc : q.putIdx + 1 = q.capacity
    · rw [if_pos hpc]
      split at hcountlt <;> split <;> omega
    · rw [if_neg hpc]
      split at hcountlt <;> split <;> omega
  refine ⟨{ q with
      store := fun i => if i = q.putIdx then item else q.store i,
      putIdx := (q.putIdx + 1) % q.capacity }, ?_, ⟨h1, Nat.mod_lt _ h1, h3⟩, hcnt, ?_, rfl, rfl⟩
  · unfold mu_spsc_put
    rw [if_neg hnotfull]
  · show Spsc.contents _ = _
    unfold Spsc.contents
    simp only
    rw [hcnt, List.range_succ, List.map_append]
    congr 1
    · apply List.map_congr_left
      intro i hi
      have hilt : i < q.count := List.mem_range.mp hi
      have hne : (q.getIdx + i) % q.capacity ≠ q.putIdx := by
        intro habs
        rw [← hput] at habs
        rcases Nat.lt_or_ge (q.getIdx + i) q.capacity with hlt | hge <;>
          rcases Nat.lt_or_ge (q.getIdx + q.count) q.capacity with hlt2 | hge2
        · rw [Nat.mod_eq_of_lt hlt, Nat.mod_eq_of_lt hlt2] at habs
          omega
        · rw [Nat.mod_eq_of_lt hlt, Nat.mod_eq_sub_mod hge2,
            Nat.mod_eq_of_lt (by omega)] at habs
          omega
        · rw [Nat.mod_eq_sub_mod hge, Nat.mod_eq_of_lt (by omega),
            Nat.mod_eq_of_lt hlt2] at habs
          omega
        · rw [Nat.mod_eq_sub_mod hge, Nat.mod_eq_of_lt (by omega),
            Nat.mod_eq_sub_mod hge2, Nat.mod_eq_of_lt (by omega)] at habs
          omega
      simp [hne]
    · simp only [List.map_cons, List.map_nil]
      rw [hput]
      simp

/-! ## Scheduler state and operations (from `src/core/mu_sched.c`)

The singleton `mu_sched_t` holds the time-ordered main queue (`task_list`),
the currently-running task, the idle task, and the ISR handoff ring.  The
clock source is external: operations that call `mu_sched_get_current_time`
take `now` as an argument.  The task's `time` field (`mu_task_set_time` /
`mu_task_get_time`, whose implementation is not in the source tree) is the
map `fireTime`; a task's intrusive link is linked exactly when the task is
in the main queue. -/

inductive SchedErr where
  | noErr
  | emptyErr
  | fullErr
  | notFound
  | nullTask
deriving DecidableEq, Repr

inductive TaskStatus where
  | idleStat
  | scheduledStat
  | runnableStat
  | activeStat
deriving DecidableEq, Repr

structure Sched where
  task_list : List TaskId
  fireTime : TaskId → Nat
  current_task : Option TaskId
  idle_task : TaskId
  irq_task_queue : Spsc

/-- Modelled from the spec: `mu_task_set_time` (the `mu_task`
implementation is not in the source tree) stores a timestamp in the task's
`time` field; the stored value is a `mu_time_t`, hence reduced
mod `TIME_MOD`. -/
def mu_task_set_time (s : Sched) (t : TaskId) (time : Nat) : Sched :=
  { s with fireTime := fun x => if x = t then time % TIME_MOD else s.fireTime x }

/-- `find_insertion_point` fused with `mu_dlist_insert_prev`: scan from the
head; insert the new task before the first incumbent whose fire-time is
strictly preceded by the new fire-time (`mu_time_precedes(time, incumbent)`
breaks the loop), or at the tail when the scan reaches the list head
again. -/
def enqueue_ordered (ft : TaskId → Nat) (time : Nat) (task : TaskId) :
    List TaskId → List TaskId
  | [] => [task]
  | x :: xs =>
    if mu_time_precedes time (ft x) then task :: x :: xs
    else x :: enqueue_ordered ft time task xs

/-- `queue_task` (mu_sched.c:243): read the task's fire-time, unlink it if
it was already linked (`mu_dlist_unlink`, modelled as `List.erase` since
the main queue is the only list the scheduler links tasks into), and insert
it at the ordered position.  Always returns `MU_SCHED_ERR_NONE`. -/
def queue_task (s : Sched) (task : TaskId) : SchedErr × Sched :=
  let time := s.fireTime task
  let q := s.task_list.erase task
  (SchedErr.noErr, { s with task_list := enqueue_ordered s.fireTime time task q })

/-- `mu_sched_task_at` (mu_sched.c:150): set the fire-time, then `queue_task`. -/
def mu_sched_task_at (s : Sched) (task : TaskId) (at_ : Nat) : SchedErr × Sched :=
  queue_task (mu_task_set_time s task at_) task

/-- `mu_sched_task_now` (mu_sched.c:145): schedule at the current time. -/
def mu_sched_task_now (s : Sched) (task : TaskId) (now : Nat) : SchedErr × Sched :=
  mu_sched_task_at s task now

/-- `mu_sched_task_in` (mu_sched.c:155): schedule at `now` offset by `in`. -/
def mu_sched_task_in (s : Sched) (task : TaskId) (now : Nat) (d : Int) :
    SchedErr × Sched :=
  mu_sched_task_at s task (mu_time_offset now d)

/-- `mu_sched_remove_task` (mu_sched.c:138): `mu_dlist_unlink` the task's
link; return the task if it was linked, NULL otherwise. -/
def mu_sched_remove_task (s : Sched) (task : TaskId) : Option TaskId × Sched :=
  if task ∈ s.task_list then
    (some task, { s with task_list := s.task_list.erase task })
  else
    (none, s)

/-- `mu_sched_reschedule_now` (mu_sched.c:160): reads the current task and
calls `mu_sched_task_now` on it **without a NULL check**; when there is no
current task this dereferences NULL inside `mu_task_set_time`, modelled as
`none`. -/
def mu_sched_reschedule_now (s : Sched) (now : Nat) : Option (SchedErr × Sched) :=
  match s.current_task with
  | none => none
  | some task => some (mu_sched_task_now s task now)

/-- `mu_sched_reschedule_in` (mu_sched.c:165): offsets the current task's
recorded fire-time by `in` (not `now + in`) and re-queues it; like
`mu_sched_reschedule_now` it has **no NULL check**, so with no current task
it dereferences NULL, modelled as `none`. -/
def mu_sched_reschedule_in (s : Sched) (d : Int) : Option (SchedErr × Sched) :=
  match s.current_task with
  | none => none
  | some task =>
    some (queue_task
      (mu_task_set_time s task (mu_time_offset (s.fireTime task) d)) task)

/-- `queue_isr_task` (mu_sched.c:255): push onto the SPSC ring; FULL if the
ring rejects the task.  Does not touch the main queue. -/
def queue_isr_task (s : Sched) (task : TaskId) : SchedErr × Sched :=
  match mu_spsc_put s.irq_task_queue task with
  | none => (SchedErr.fullErr, s)
  | some q => (SchedErr.noErr, { s with irq_task_queue := q })

/-- `mu_sched_isr_task_now` (mu_sched.c:171). -/
def mu_sched_isr_task_now (s : Sched) (task : TaskId) (now : Nat) :
    SchedErr × Sched :=
  queue_isr_task (mu_task_set_time s task now) task

/-- `mu_sched_isr_task_at` (mu_sched.c:176). -/
def mu_sched_isr_task_at (s : Sched) (task : TaskId) (at_ : Nat) :
    SchedErr × Sched :=
  queue_isr_task (mu_task_set_time s task at_) task

/-- `mu_sched_isr_task_in` (mu_sched.c:181). -/
def mu_sched_isr_task_in (s : Sched) (task : TaskId) (now : Nat) (d : Int) :
    SchedErr × Sched :=
  queue_isr_task (mu_task_set_time s task (mu_time_offset now d)) task

/-- `mu_task_is_scheduled`: the task's link is linked, i.e. the task is in
the main queue. -/
def mu_task_is_scheduled (s : Sched) (task : TaskId) : Bool :=
  task ∈ s.task_list

/-- `mu_sched_get_task_status` (mu_sched.c:186): ACTIVE if the task is the
current task; IDLE if not scheduled; then RUNNABLE iff its fire-time does
not follow now, else SCHEDULED. -/
def mu_sched_get_task_status (s : Sched) (now : Nat) (task : TaskId) :
    TaskStatus :=
  if s.current_task = some task then TaskStatus.activeStat
  else if ¬ mu_task_is_scheduled s task then TaskStatus.idleStat
  else if ¬ mu_time_follows (s.fireTime task) now then TaskStatus.runnableStat
  else TaskStatus.scheduledStat

/-- `get_runnable_task` (mu_sched.c:229): peek the head of the main queue;
if its fire-time does not follow `now`, pop it, else return the idle task
and leave the queue unchanged.  Returns the chosen task and the remaining
queue. -/
def get_runnable_task (s : Sched) (now : Nat) : TaskId × List TaskId :=
  match s.task_list with
  | [] => (s.idle_task, [])
  | t :: rest =>
    if ¬ mu_time_follows (s.fireTime t) now then (t, rest)
    else (s.idle_task, t :: rest)

/-- The drain loop of `mu_sched_step` (mu_sched.c:103): repeatedly
`mu_spsc_get` and `queue_task` until the ring is empty.  The loop runs at
most `capacity` times on a well-formed ring, so it is given `capacity` as
fuel. -/
def drainLoop : Nat → Sched → Sched
  | 0, s => s
  | fuel + 1, s =>
    match mu_spsc_get s.irq_task_queue with
    | none => s
    | some (t, q) => drainLoop fuel ((queue_task { s with irq_task_queue := q } t).2)

/-- Observable outcome of one `mu_sched_step` call: the returned error, the
task passed to `mu_task_call`, the value of `s_sched.current_task` during
that call, and the scheduler state after the step.  The invoked callable is
external and is not itself modelled. -/
structure StepOutcome where
  err : SchedErr
  invoked : TaskId
  currentDuringCall : Option TaskId
  final : Sched

/-- `mu_sched_step` (mu_sched.c:98): read the clock, drain the ISR ring
into the main queue via `queue_task`, set `current_task` to the runnable
(or idle) task, invoke it, clear `current_task`, return NONE. -/
def mu_sched_step (s : Sched) (now : Nat) : StepOutcome :=
  let s1 := drainLoop s.irq_task_queue.capacity s
  let tr := get_runnable_task s1 now
  { err := SchedErr.noErr
    invoked := tr.1
    currentDuringCall := some tr.1
    final := { s1 with task_list := tr.2, current_task := none } }

/-- The foreground scheduling operations of the public API. -/
inductive FgOp where
  | opTaskNow (t : TaskId) (now : Nat)
  | opTaskAt (t : TaskId) (at_ : Nat)
  | opTaskIn (t : TaskId) (now : Nat) (d : Int)
  | opRemove (t : TaskId)
  | opReschedNow (now : Nat)
  | opReschedIn (d : Int)

/-- Apply one foreground operation; a `reschedule` with no current task
dereferences NULL in the source (see `mu_sched_reschedule_now`), so its
"result state" is taken to be the untouched state here. -/
def applyFgOp (s : Sched) : FgOp → Sched
  | FgOp.opTaskNow t now => (mu_sched_task_now s t now).2
  | FgOp.opTaskAt t at_ => (mu_sched_task_at s t at_).2
  | FgOp.opTaskIn t now d => (mu_sched_task_in s t now d).2
  | FgOp.opRemove t => (mu_sched_remove_task s t).2
  | FgOp.opReschedNow now =>
    match mu_sched_reschedule_now s now with
    | some (_, s') => s'
    | none => s
  | FgOp.opReschedIn d =>
    match mu_sched_reschedule_in s d with
    | some (_, s') => s'
    | none => s

def applyFgOps (ops : List FgOp) (s : Sched) : Sched := ops.foldl applyFgOp s

/-! ## Ordered-insertion lemmas -/

/-- Ordered insertion is a permutation of consing the new task. -/
theorem enqueue_ordered_perm (ft : TaskId → Nat) (time : Nat) (task : TaskId) :
    ∀ l : List TaskId, (enqueue_ordered ft time task l).Perm (task :: l)
  | [] => List.Perm.refl _
  | x :: xs => by
    unfold enqueue_ordered
    split
    · exact List.Perm.refl _
    · exact ((enqueue_ordered_perm ft time task xs).cons x).trans
        (List.Perm.swap task x xs)

/-- Ordered insertion inserts the task after the longest prefix of elements
whose fire-times the new fire-time does not strictly precede. -/
theorem enqueue_ordered_eq (ft : TaskId → Nat) (time : Nat) (task : TaskId) :
    ∀ l : List TaskId,
      enqueue_ordered ft time task l =
        l.takeWhile (fun x => !(mu_time_precedes time (ft x))) ++
          task :: l.dropWhile (fun x => !(mu_time_precedes time (ft x)))
  | [] => rfl
  | x :: xs => by
    unfold enqueue_ordered
    cases hp : mu_time_precedes time (ft x) with
    | true => simp [List.takeWhile_cons, List.dropWhile_cons, hp]
    | false =>
      simp [List.takeWhile_cons, List.dropWhile_cons, hp,
        enqueue_ordered_eq ft time task xs]

/-- The inserted task is a member of the result. -/
theorem mem_enqueue_ordered (ft : TaskId → Nat) (time : Nat) (task : TaskId)
    (l : List TaskId) : task ∈ enqueue_ordered ft time task l :=
  (enqueue_ordered_perm ft time task l).symm.subset (List.mem_cons_self task l)

/-- `queue_task` leaves every component but the main queue unchanged, and
the new queue is a permutation of re-consing the task onto the queue with
the task removed. -/
theorem queue_task_spec (s : Sched) (task : TaskId) :
    (queue_task s task).1 = SchedErr.noErr ∧
      ((queue_task s task).2.task_list.Perm (task :: s.task_list.erase task)) ∧
      (queue_task s task).2.fireTime = s.fireTime ∧
      (queue_task s task).2.current_task = s.current_task ∧
      (queue_task s task).2.idle_task = s.idle_task ∧
      (queue_task s task).2.irq_task_queue = s.irq_task_queue :=
  ⟨rfl, enqueue_ordered_perm _ _ _ _, rfl, rfl, rfl, rfl⟩

/-- `queue_task` preserves queue distinctness. -/
theorem queue_task_nodup {s : Sched} (h : s.task_list.Nodup) (task : TaskId) :
    (queue_task s task).2.task_list.Nodup := by
  refine ((queue_task_spec s task).2.1.nodup_iff).mpr ?_
  refine List.nodup_cons.mpr ⟨?_, h.erase task⟩
  intro hmem
  exact absurd ((h.mem_erase_iff).mp hmem).1 (by simp)

/-- Each foreground operation preserves queue distinctness. -/
theorem applyFgOp_nodup {s : Sched} (h : s.task_list.Nodup) (op : FgOp) :
    (applyFgOp s op).task_list.Nodup := by
  cases op with
  | opTaskNow t now =>
    simp only [applyFgOp, mu_sched_task_now, mu_sched_task_at]
    have h' : (mu_task_set_time s t now).task_list.Nodup := h
    exact queue_task_nodup h' t
  | opTaskAt t at_ =>
    simp only [applyFgOp, mu_sched_task_at]
    have h' : (mu_task_set_time s t at_).task_list.Nodup := h
    exact queue_task_nodup h' t
  | opTaskIn t now d =>
    simp only [applyFgOp, mu_sched_task_in, mu_sched_task_at]
    have h' : (mu_task_set_time s t (mu_time_offset now d)).task_list.Nodup := h
    exact queue_task_nodup h' t
  | opRemove t =>
    simp only [applyFgOp, mu_sched_remove_task]
    split
    · exact h.erase t
    · exact h
  | opReschedNow now =>
    simp only [applyFgOp, mu_sched_reschedule_now]
    cases s.current_task with
    | none => exact h
    | some t =>
      simp only [mu_sched_task_now, mu_sched_task_at]
      have h' : (mu_task_set_time s t now).task_list.Nodup := h
      exact queue_task_nodup h' t
  | opReschedIn d =>
    simp only [applyFgOp, mu_sched_reschedule_in]
    cases s.current_task with
    | none => exact h
    | some t =>
      have h' : (mu_task_set_time s t
          (mu_time_offset (s.fireTime t) d)).task_list.Nodup := h
      exact queue_task_nodup h' t

/-- Any sequence of foreground operations preserves queue distinctness. -/
theorem applyFgOps_nodup {s : Sched} (h : s.task_list.Nodup) :
    ∀ ops : List FgOp, (applyFgOps ops s).task_list.Nodup := by
  intro ops
  induction ops generalizing s with
  | nil => exact h
  | cons op rest ih => exact ih (applyFgOp_nodup h op)

/-! ## Sortedness of the main queue -/

/-- The main-queue invariant P1: each element's fire-time is not strictly
preceded by its successor's fire-time ("sorted by precedes"). -/
def chainSorted (ft : TaskId → Nat) (l : List TaskId) : Prop :=
  List.Chain' (fun a b => mu_time_precedes (ft b) (ft a) = false) l

instance (ft : TaskId → Nat) (l : List TaskId) : Decidable (chainSorted ft l) :=
  inferInstanceAs (Decidable (List.Chain'
    (fun a b => mu_time_precedes (ft b) (ft a) = false) l))

/-- Shifted coordinate of a fire-time relative to a window base. -/
def timeKey (ft : TaskId → Nat) (base : Nat) (x : TaskId) : Nat :=
  timeSub (ft x) base

/-- Within a half-window, queue sortedness is ordinary `≤`-sortedness of
the shifted fire-times. -/
theorem chainSorted_iff_keys (ft : TaskId → Nat) (base : Nat) :
    ∀ l : List TaskId, (∀ x ∈ l, timeSub (ft x) base < HALF_WINDOW) →
      (chainSorted ft l ↔
        List.Chain' (fun a b : Nat => a ≤ b) (l.map (timeKey ft base)))
  | [] => by simp [chainSorted]
  | [x] => by simp [chainSorted]
  | x :: y :: rest => by
    intro hW
    have hx := hW x (by simp)
    have hy := hW y (by simp)
    have ih := chainSorted_iff_keys ft base (y :: rest)
      (fun z hz => hW z (List.mem_cons_of_mem x hz))
    simp only [chainSorted, List.map_cons, List.chain'_cons] at *
    constructor
    · rintro ⟨h1, h2⟩
      refine ⟨?_, ih.mp h2⟩
      by_contra hgt
      push_neg at hgt
      have hp := (mu_time_precedes_iff_lt hy hx).mpr hgt
      rw [h1] at hp
      cases hp
    · rintro ⟨h1, h2⟩
      refine ⟨?_, ih.mpr h2⟩
      cases hp : mu_time_precedes (ft y) (ft x) with
      | false => rfl
      | true =>
        have := (mu_time_precedes_iff_lt hy hx).mp hp
        unfold timeKey at h1
        omega

/-- Removing an element preserves sortedness, provided the queue lies in a
half-window (spec §3: tasks are never scheduled further than half the
window apart). -/
theorem chainSorted_erase {ft : TaskId → Nat} {base : Nat} {l : List TaskId}
    (hW : ∀ x ∈ l, timeSub (ft x) base < HALF_WINDOW)
    (hs : chainSorted ft l) (t : TaskId) : chainSorted ft (l.erase t) := by
  have hWe : ∀ x ∈ l.erase t, timeSub (ft x) base < HALF_WINDOW :=
    fun x hx => hW x ((List.erase_sublist t l).mem hx)
  rw [chainSorted_iff_keys ft base l hW] at hs
  rw [chainSorted_iff_keys ft base (l.erase t) hWe]
  rw [List.chain'_iff_pairwise] at hs ⊢
  exact hs.sublist ((List.erase_sublist t l).map (timeKey ft base))

/-- Ordered insertion of a task at its own fire-time preserves sortedness
(no window assumption needed: both junctions are direct consequences of
the loop's break condition). -/
theorem chainSorted_enqueue (ft : TaskId → Nat) (task : TaskId)
    {l : List TaskId} (hl : chainSorted ft l) :
    chainSorted ft (enqueue_ordered ft (ft task) task l) := by
  rw [enqueue_ordered_eq]
  unfold chainSorted
  have hl2 : List.Chain'
      (fun a b => mu_time_precedes (ft b) (ft a) = false)
      (l.takeWhile (fun x => !(mu_time_precedes (ft task) (ft x))) ++
        l.dropWhile (fun x => !(mu_time_precedes (ft task) (ft x)))) := by
    rw [List.takeWhile_append_dropWhile]
    exact hl
  obtain ⟨hP, hS, -⟩ := List.chain'_append.mp hl2
  rw [List.chain'_append]
  refine ⟨hP, ?_, ?_⟩
  · rw [List.chain'_cons']
    refine ⟨?_, hS⟩
    intro y hy
    have hpy := List.head?_dropWhile_not
      (fun x => !(mu_time_precedes (ft task) (ft x))) l
    rw [hy] at hpy
    simp only [Bool.not_eq_false'] at hpy
    exact mu_time_precedes_asymm hpy
  · intro x hx y hy
    have hmem : x ∈ l.takeWhile (fun x => !(mu_time_precedes (ft task) (ft x))) :=
      List.mem_of_mem_getLast? hx
    have hpx := List.mem_takeWhile_imp hmem
    simp only [List.head?_cons, Option.mem_some_iff] at hy
    subst hy
    simpa using hpx

/-! ## The step's ISR drain loop -/

/-- The main-queue effect of `queue_task`, as a function on queues. -/
def queue_task_list (ft : TaskId → Nat) (q : List TaskId) (t : TaskId) :
    List TaskId :=
  enqueue_ordered ft (ft t) t (q.erase t)

/-- The drain loop transfers the ring contents, oldest first, into the
main queue via `queue_task`; with enough fuel it empties the ring and
touches nothing else. -/
theorem drainLoop_spec :
    ∀ (n : Nat) (s : Sched), s.irq_task_queue.Wf → s.irq_task_queue.count ≤ n →
      (drainLoop n s).task_list =
          s.irq_task_queue.contents.foldl (queue_task_list s.fireTime) s.task_list
        ∧ (drainLoop n s).irq_task_queue.count = 0
        ∧ (drainLoop n s).fireTime = s.fireTime
        ∧ (drainLoop n s).current_task = s.current_task
        ∧ (drainLoop n s).idle_task = s.idle_task
        ∧ (drainLoop n s).irq_task_queue.capacity = s.irq_task_queue.capacity
        ∧ (drainLoop n s).irq_task_queue.Wf := by
  intro n
  induction n with
  | zero =>
    intro s hwf hcnt
    have hc0 : s.irq_task_queue.count = 0 := Nat.le_zero.mp hcnt
    have hcont : s.irq_task_queue.contents = [] := by
      unfold Spsc.contents
      rw [hc0]
      rfl
    simp [drainLoop, hcont, hc0, hwf]
  | succ n ih =>
    intro s hwf hcnt
    by_cases heq : s.irq_task_queue.putIdx = s.irq_task_queue.getIdx
    · have hc0 : s.irq_task_queue.count = 0 := Spsc.count_empty heq
      have hcont : s.irq_task_queue.contents = [] := by
        unfold Spsc.contents
        rw [hc0]
        rfl
      unfold drainLoop
      rw [mu_spsc_get_empty heq]
      simp [hcont, hc0, hwf]
    · obtain ⟨q', hget, hwf', hcnt', hpos, hcont, -, hcap, -⟩ :=
        mu_spsc_get_spec hwf heq
      set t := s.irq_task_queue.store s.irq_task_queue.getIdx with ht
      have hstep : drainLoop (n + 1) s =
          drainLoop n ((queue_task { s with irq_task_queue := q' } t).2) := by
        conv_lhs => rw [drainLoop]
        rw [hget]
      set s2 := (queue_task { s with irq_task_queue := q' } t).2 with hs2
      have hs2q : s2.irq_task_queue = q' := rfl
      have hs2ft : s2.fireTime = s.fireTime := rfl
      have hs2cur : s2.current_task = s.current_task := rfl
      have hs2idle : s2.idle_task = s.idle_task := rfl
      have hs2list : s2.task_list = queue_task_list s.fireTime s.task_list t := rfl
      obtain ⟨ih1, ih2, ih3, ih4, ih5, ih6, ih7⟩ :=
        ih s2 (hs2q ▸ hwf') (by rw [hs2q, hcnt']; omega)
      rw [hstep]
      refine ⟨?_, ih2, ?_, ?_, ?_, ?_, ih7⟩
      · rw [ih1, hcont, hs2ft, hs2list, List.foldl_cons, hs2q]
      · rw [ih3, hs2ft]
      · rw [ih4, hs2cur]
      · rw [ih5, hs2idle]
      · rw [ih6, hs2q, hcap]

/-- The main queue after the step's drain: the old ring contents, oldest
first, each inserted by `queue_task`. -/
def drainedQueue (s : Sched) : List TaskId :=
  s.irq_task_queue.contents.foldl (queue_task_list s.fireTime) s.task_list

/-- Run `mu_sched_isr_task_now` for each task in turn; `none` as soon as
one of the enqueues fails. -/
def isrEnqueueAll (s : Sched) (now : Nat) : List TaskId → Option Sched
  | [] => some s
  | t :: ts =>
    let r := mu_sched_isr_task_now s t now
    if r.1 = SchedErr.noErr then isrEnqueueAll r.2 now ts else none

/-- As long as the ring has room for them, successive ISR enqueues all
succeed. -/
theorem isrEnqueueAll_ne_none :
    ∀ (ts : List TaskId) (s : Sched) (now : Nat), s.irq_task_queue.Wf →
      s.irq_task_queue.count + ts.length ≤ s.irq_task_queue.capacity - 1 →
      isrEnqueueAll s now ts ≠ none
  | [], s, now => by
    intro _ _
    simp [isrEnqueueAll]
  | t :: ts, s, now => by
    intro hwf hroom
    have hlt : s.irq_task_queue.count < s.irq_task_queue.capacity - 1 := by
      simp only [List.length_cons] at hroom
      omega
    obtain ⟨q', hput, hwf', hcnt', -, -, hcap'⟩ := mu_spsc_put_spec hwf t hlt
    have hr : mu_sched_isr_task_now s t now =
        (SchedErr.noErr, { mu_task_set_time s t now with irq_task_queue := q' }) := by
      unfold mu_sched_isr_task_now queue_isr_task
      have : (mu_task_set_time s t now).irq_task_queue = s.irq_task_queue := rfl
      rw [this, hput]
    unfold isrEnqueueAll
    rw [hr]
    simp only [reduceIte]
    exact isrEnqueueAll_ne_none ts _ now hwf' (by
      show Spsc.count q' + ts.length ≤ (Spsc.capacity q') - 1
      rw [hcnt', hcap']
      simp only [List.length_cons] at hroom
      omega)

/-! ## Intrusive doubly-linked list (pointer-level model of `mu_dlist.c`,
`src/unnamed/part_005`)

Nodes live in a heap indexed by address; a NULL pointer is `none`.
Dereferencing NULL is modelled by the operation returning `none`
("crash"); each C statement is translated in source order. -/

abbrev Addr := Nat

structure Node where
  prev : Option Addr
  next : Option Addr
deriving DecidableEq, Repr

def Heap := Addr → Node

/-- Store a node at an address. -/
def hset (h : Heap) (a : Addr) (n : Node) : Heap :=
  fun x => if x = a then n else h x

/-- `mu_dlist_push` (part_005:106): push `element` onto the head of the
list with sentinel `list`.  Statements in source order:
`element->next = list->next; list->next->prev = element;
list->next = element; element->prev = list;
if (list->prev == list) list->prev = element;`. -/
def mu_dlist_push (h : Heap) (list element : Addr) : Option Heap :=
  let n0 := (h list).next
  let h1 := hset h element { h element with next := n0 }
  match n0 with
  | none => none
  | some f =>
    let h2 := hset h1 f { h1 f with prev := some element }
    let h3 := hset h2 list { h2 list with next := some element }
    let h4 := hset h3 element { h3 element with prev := some list }
    let h5 := if (h4 list).prev = some list
              then hset h4 list { h4 list with prev := some element }
              else h4
    some h5

/-- `mu_dlist_pop` (part_005:128): pop the first element, or return NULL on
an empty list.  Statements in source order:
`if (list->next != list) { element = list->next;
element->next->prev = element->prev; list->next = element->next;
element->next = NULL; element->prev = NULL;
if (list->prev == element) list->prev = list; } return element;`. -/
def mu_dlist_pop (h : Heap) (list : Addr) : Option (Option Addr × Heap) :=
  match (h list).next with
  | none => none
  | some x =>
    if x = list then some (none, h)
    else
      match (h x).next with
      | none => none
      | some f =>
        let h1 := hset h f { h f with prev := (h x).prev }
        let h2 := hset h1 list { h1 list with next := (h1 x).next }
        let h3 := hset h2 x { h2 x with next := none }
        let h4 := hset h3 x { h3 x with prev := none }
        let h5 := if (h4 list).prev = some x
                  then hset h4 list { h4 list with prev := some list }
                  else h4
        some (some x, h5)

/-- The `next` chain from `prevA` runs through `l` and closes back at the
sentinel, with consistent `prev` pointers. -/
def chainOk (h : Heap) (sentinel : Addr) : Addr → List Addr → Prop
  | prevA, [] => (h prevA).next = some sentinel ∧ (h sentinel).prev = some prevA
  | prevA, x :: rest =>
    (h prevA).next = some x ∧ (h x).prev = some prevA ∧ chainOk h sentinel x rest

instance chainOkDec (h : Heap) (s : Addr) :
    ∀ (p : Addr) (l : List Addr), Decidable (chainOk h s p l)
  | p, [] => by unfold chainOk; infer_instance
  | p, x :: rest => by
    unfold chainOk
    have := chainOkDec h s x rest
    infer_instance

/-- A well-formed circular list: sentinel `sentinel`, elements `elems` in
next-order, all addresses distinct. -/
def isCycle (h : Heap) (sentinel : Addr) (elems : List Addr) : Prop :=
  chainOk h sentinel sentinel elems ∧ (sentinel :: elems).Nodup

instance (h : Heap) (s : Addr) (elems : List Addr) : Decidable (isCycle h s elems) := by
  unfold isCycle
  infer_instance

/-- The sentinel's `prev` pointer is the last element of the chain. -/
theorem chainOk_prev_last (h : Heap) (s : Addr) :
    ∀ (l : List Addr) (p : Addr), chainOk h s p l →
      (h s).prev = some (l.getLastD p)
  | [], p => fun hc => by simpa using hc.2
  | x :: rest, p => fun hc => by
    rw [List.getLastD_cons]
    exact chainOk_prev_last h s rest x hc.2.2

/-- Concrete heap for exercising the dlist operations: a circular list with
sentinel 0 and elements 1, 2; address 3 is unlinked. -/
def exHeap : Heap := fun a =>
  if a = 0 then ⟨some 2, some 1⟩
  else if a = 1 then ⟨some 0, some 2⟩
  else if a = 2 then ⟨some 1, some 0⟩
  else ⟨none, none⟩

/-- Concrete empty ISR ring of capacity 8 (`MU_IRQ_TASK_QUEUE_SIZE`). -/
def exSpsc : Spsc :=
  { capacity := 8, store := fun _ => 0, putIdx := 0, getIdx := 0 }

/-- Concrete scheduler state: empty queue, empty ring, idle task 7, no
current task; every task's time field reads 0. -/
def exSched : Sched :=
  { task_list := [], fireTime := fun _ => 0, current_task := none,
    idle_task := 7, irq_task_queue := exSpsc }

/-- Concrete scheduler state in which task 4 (recorded fire-time 1030) is
being invoked (it has been popped, so the queue is empty). -/
def exSchedRun : Sched :=
  { task_list := [], fireTime := fun t => if t = 4 then 1030 else 0,
    current_task := some 4, idle_task := 7, irq_task_queue := exSpsc }

/-- Concrete scheduler state with two queued tasks 1 (fire-time 1100) and
2 (fire-time 1200). -/
def exSchedQ : Sched :=
  { task_list := [1, 2],
    fireTime := fun t => if t = 1 then 1100 else if t = 2 then 1200 else 0,
    current_task := none, idle_task := 7, irq_task_queue := exSpsc }

/-! ## Claim theorems -/

/-- C10: For every well-formed circular list (sentinel `L`, elements
`elems`) and every element `e` not in any list, `mu_dlist_push(L, e)`
followed by `mu_dlist_pop(L)` returns `e` with both of `e`'s link pointers
cleared to NULL and restores the whole heap (hence the list `L`) to
exactly its state before the push; `mu_dlist_pop` on an empty list returns
NULL and leaves the list (heap) unchanged. -/
theorem dlist_push_pop_roundtrip (h : Heap) (L e : Addr) (elems : List Addr)
    (hcyc : isCycle h L elems) (he : e ∉ L :: elems)
    (heprev : (h e).prev = none) (henext : (h e).next = none) :
    (∃ h1 h2, mu_dlist_push h L e = some h1 ∧
       mu_dlist_pop h1 L = some (some e, h2) ∧
       (h2 e).prev = none ∧ (h2 e).next = none ∧ ∀ a, h2 a = h a) ∧
    (∀ (h0 : Heap) (L0 : Addr), isCycle h0 L0 [] →
       mu_dlist_pop h0 L0 = some (none, h0)) := by
  constructor
  · obtain ⟨hchain, hnd⟩ := hcyc
    have heL : e ≠ L := by
      intro hEq
      exact he (hEq ▸ List.mem_cons_self e _)
    have hLe : L ≠ e := heL.symm
    cases elems with
    | nil =>
      obtain ⟨hLnext, hLprev⟩ := hchain
      have heval : h e = Node.mk none none := by
        cases hee : h e with
        | mk pp nn =>
          rw [hee] at heprev henext
          simp only at heprev henext
          rw [heprev, henext]
      have hLval : h L = Node.mk (some L) (some L) := by
        cases hLL : h L with
        | mk pp nn =>
          rw [hLL] at hLprev hLnext
          simp only at hLprev hLnext
          rw [hLprev, hLnext]
      simp only [mu_dlist_push, hLnext, hset, heL, hLe, reduceIte, henext, heprev,
        Option.some.injEq]
      exact ⟨_, _, rfl,
        by
          simp only [mu_dlist_pop, hset, heL, hLe, reduceIte, Option.some.injEq]
          exact rfl,
        by simp [hset, heL, hLe],
        by simp [hset, heL, hLe],
        by
          intro a
          by_cases haL : a = L
          · subst haL
            simp [hset, heL, hLe, hLval]
          · by_cases hae : a = e
            · subst hae
              simp [hset, heL, hLe, heval]
            · simp [hset, haL, hae]⟩
    | cons f rest =>
      obtain ⟨hLnext, hfprev, hchain'⟩ := hchain
      have hLprev : (h L).prev = some ((f :: rest).getLastD L) :=
        chainOk_prev_last h L (f :: rest) L ⟨hLnext, hfprev, hchain'⟩
      rw [List.getLastD_cons] at hLprev
      have hpmem : rest.getLastD f ∈ f :: rest := List.getLastD_mem_cons rest f
      have hLnotmem : L ∉ f :: rest := (List.nodup_cons.mp hnd).1
      have hfL : f ≠ L := by
        intro hEq
        exact hLnotmem (hEq ▸ List.mem_cons_self f rest)
      have hLf : L ≠ f := hfL.symm
      have hef : e ≠ f := by
        intro hEq
        exact he (List.mem_cons_of_mem L (hEq ▸ List.mem_cons_self f rest))
      have hfe : f ≠ e := hef.symm
      have hpL : rest.getLastD f ≠ L := fun hEq => hLnotmem (hEq ▸ hpmem)
      have hpe : rest.getLastD f ≠ e := by
        intro hEq
        exact he (List.mem_cons_of_mem L (hEq ▸ hpmem))
      have heval : h e = Node.mk none none := by
        cases hee : h e with
        | mk pp nn =>
          rw [hee] at heprev henext
          simp only at heprev henext
          rw [heprev, henext]
      have hLval : h L = Node.mk (some (rest.getLastD f)) (some f) := by
        cases hLL : h L with
        | mk pp nn =>
          rw [hLL] at hLprev hLnext
          simp only at hLprev hLnext
          rw [hLprev, hLnext]
      have hfval : h f = Node.mk (some L) ((h f).next) := by
        cases hff : h f with
        | mk pp nn =>
          rw [hff] at hfprev
          simp only at hfprev
          rw [hfprev]
      simp only [mu_dlist_push, hLnext, hLprev, hfprev, hset, heL, hLe, hef, hfe,
        hfL, hLf, reduceIte, henext, heprev, Option.some.injEq, hpL]
      exact ⟨_, _, rfl,
        by
          simp only [mu_dlist_pop, hset, heL, hLe, hef, hfe, hfL, hLf, reduceIte,
            Option.some.injEq, hpe]
          exact rfl,
        by simp [hset, heL, hLe, hef, hfe, hfL, hLf],
        by simp [hset, heL, hLe, hef, hfe, hfL, hLf],
        by
          intro a
          by_cases haL : a = L
          · subst haL
            simp [hset, heL, hLe, hef, hfe, hfL, hLf, hLval]
          · by_cases hae : a = e
            · subst hae
              simp [hset, heL, hLe, hef, hfe, hfL, hLf, heval]
            · by_cases haf : a = f
              · subst haf
                simp only [hset, heL, hLe, hef, hfe, hfL, hLf, reduceIte, haL, hae]
                exact hfval.symm
              · simp [hset, haL, hae, haf]⟩
  · intro h0 L0 hc
    simp [mu_dlist_pop, hc.1.1]

/-- Witness for C10 at a concrete two-element cycle with sentinel 0 and
fresh element 3. -/
theorem dlist_push_pop_roundtrip_witness :
    (isCycle exHeap 0 [1, 2] ∧ (3 : Addr) ∉ ([0, 1, 2] : List Addr) ∧
      (exHeap 3).prev = none ∧ (exHeap 3).next = none) ∧
    ((∃ h1 h2, mu_dlist_push exHeap 0 3 = some h1 ∧
        mu_dlist_pop h1 0 = some (some 3, h2) ∧
        (h2 3).prev = none ∧ (h2 3).next = none ∧ ∀ a, h2 a = exHeap a) ∧
      (∀ (h0 : Heap) (L0 : Addr), isCycle h0 L0 [] →
        mu_dlist_pop h0 L0 = some (none, h0))) :=
  ⟨⟨by decide, by decide, by decide, by decide⟩,
    dlist_push_pop_roundtrip exHeap 0 3 [1, 2] (by decide) (by decide)
      (by decide) (by decide)⟩

/-- C5: with no currently-running task, `mu_sched_reschedule_now` and
`mu_sched_reschedule_in` pass a NULL task to `mu_task_set_time` (a NULL
dereference, modelled `none`); in particular neither returns the NOT_FOUND
that `mu_sched.h` documents, and no state with that error is produced. -/
theorem reschedule_no_current_crashes (s : Sched) (now : Nat) (d : Int)
    (h : s.current_task = none) :
    mu_sched_reschedule_now s now = none ∧
    mu_sched_reschedule_in s d = none ∧
    mu_sched_reschedule_now s now ≠ some (SchedErr.notFound, s) ∧
    mu_sched_reschedule_in s d ≠ some (SchedErr.notFound, s) := by
  unfold mu_sched_reschedule_now mu_sched_reschedule_in
  rw [h]
  exact ⟨rfl, rfl, by simp, by simp⟩

/-- Witness for C5 at the concrete idle scheduler state. -/
theorem reschedule_no_current_crashes_witness :
    exSched.current_task = none ∧
    (mu_sched_reschedule_now exSched 1000 = none ∧
     mu_sched_reschedule_in exSched 5 = none ∧
     mu_sched_reschedule_now exSched 1000 ≠ some (SchedErr.notFound, exSched) ∧
     mu_sched_reschedule_in exSched 5 ≠ some (SchedErr.notFound, exSched)) :=
  ⟨rfl, reschedule_no_current_crashes exSched 1000 5 rfl⟩

/-- C6: with a currently-running task `T`, `mu_sched_reschedule_in(D)` sets
`T`'s new fire-time to its previously recorded fire-time plus `D` (not the
current time plus `D` — the clock is not consulted at all), re-inserts `T`
into the main queue, and touches no other task's time. -/
theorem reschedule_in_drift_free (s : Sched) (T : TaskId) (d : Int)
    (h : s.current_task = some T) :
    ∃ s', mu_sched_reschedule_in s d = some (SchedErr.noErr, s') ∧
      s'.fireTime T = mu_time_offset (s.fireTime T) d ∧
      T ∈ s'.task_list ∧
      (∀ u, u ≠ T → s'.fireTime u = s.fireTime u) := by
  unfold mu_sched_reschedule_in
  rw [h]
  refine ⟨_, rfl, ?_, ?_, ?_⟩
  · show (mu_task_set_time s T (mu_time_offset (s.fireTime T) d)).fireTime T = _
    unfold mu_task_set_time
    simp only [if_pos rfl]
    exact Nat.mod_eq_of_lt (mu_time_offset_lt _ _)
  · exact mem_enqueue_ordered _ _ _ _
  · intro u hu
    show (mu_task_set_time s T (mu_time_offset (s.fireTime T) d)).fireTime u = _
    unfold mu_task_set_time
    simp [hu]

/-- Witness for C6: task 4 recorded at 1030 with period 10 is rescheduled
to 1040, even though the (unconsulted) clock would say 1035; 1040 differs
from 1035 + 10. -/
theorem reschedule_in_drift_free_witness :
    exSchedRun.current_task = some 4 ∧
    (∃ s', mu_sched_reschedule_in exSchedRun 10 = some (SchedErr.noErr, s') ∧
      s'.fireTime 4 = mu_time_offset (exSchedRun.fireTime 4) 10 ∧
      4 ∈ s'.task_list ∧
      (∀ u, u ≠ 4 → s'.fireTime u = exSchedRun.fireTime u)) ∧
    mu_time_offset (exSchedRun.fireTime 4) 10 = 1040 ∧
    mu_time_offset 1035 10 = 1045 :=
  ⟨rfl, reschedule_in_drift_free exSchedRun 4 10 rfl, by decide, by decide⟩

/-- C7: scheduling a non-current task at the current time makes its status
RUNNABLE immediately (an equal fire-time does not "follow" now); and
`mu_sched_get_task_status` decides in the order ACTIVE (current task),
IDLE (link unlinked), RUNNABLE (fire-time does not follow now),
SCHEDULED (otherwise). -/
theorem status_runnable_at_now (s : Sched) (T : TaskId) (now : Nat)
    (hcur : s.current_task ≠ some T) :
    mu_sched_get_task_status (mu_sched_task_at s T now).2 now T =
      TaskStatus.runnableStat ∧
    (∀ (s2 : Sched) (n2 : Nat) (t2 : TaskId),
      (s2.current_task = some t2 →
        mu_sched_get_task_status s2 n2 t2 = TaskStatus.activeStat) ∧
      (s2.current_task ≠ some t2 → t2 ∉ s2.task_list →
        mu_sched_get_task_status s2 n2 t2 = TaskStatus.idleStat) ∧
      (s2.current_task ≠ some t2 → t2 ∈ s2.task_list →
        mu_time_follows (s2.fireTime t2) n2 = false →
        mu_sched_get_task_status s2 n2 t2 = TaskStatus.runnableStat) ∧
      (s2.current_task ≠ some t2 → t2 ∈ s2.task_list →
        mu_time_follows (s2.fireTime t2) n2 = true →
        mu_sched_get_task_status s2 n2 t2 = TaskStatus.scheduledStat)) := by
  constructor
  · have hcur' : (mu_sched_task_at s T now).2.current_task = s.current_task := rfl
    have hmem : T ∈ (mu_sched_task_at s T now).2.task_list :=
      mem_enqueue_ordered _ _ _ _
    have hft : (mu_sched_task_at s T now).2.fireTime T = now % TIME_MOD := by
      show (mu_task_set_time s T now).fireTime T = _
      unfold mu_task_set_time
      simp
    unfold mu_sched_get_task_status
    rw [hcur', if_neg hcur]
    rw [if_neg (by simp [mu_task_is_scheduled, hmem])]
    rw [hft, if_pos (by simp [mu_time_follows_mod_self])]
  · intro s2 n2 t2
    refine ⟨?_, ?_, ?_, ?_⟩
    · intro hc
      unfold mu_sched_get_task_status
      rw [if_pos hc]
    · intro hc hm
      unfold mu_sched_get_task_status
      rw [if_neg hc, if_pos (by simp [mu_task_is_scheduled, hm])]
    · intro hc hm hf
      unfold mu_sched_get_task_status
      rw [if_neg hc, if_neg (by simp [mu_task_is_scheduled, hm]),
        if_pos (by simp [hf])]
    · intro hc hm hf
      unfold mu_sched_get_task_status
      rw [if_neg hc, if_neg (by simp [mu_task_is_scheduled, hm]),
        if_neg (by simp [hf])]

/-- Witness for C7: scheduling task 5 at the current time 1000 in the idle
state makes it RUNNABLE. -/
theorem status_runnable_at_now_witness :
    exSched.current_task ≠ some 5 ∧
    (mu_sched_get_task_status (mu_sched_task_at exSched 5 1000).2 1000 5 =
      TaskStatus.runnableStat ∧
    (∀ (s2 : Sched) (n2 : Nat) (t2 : TaskId),
      (s2.current_task = some t2 →
        mu_sched_get_task_status s2 n2 t2 = TaskStatus.activeStat) ∧
      (s2.current_task ≠ some t2 → t2 ∉ s2.task_list →
        mu_sched_get_task_status s2 n2 t2 = TaskStatus.idleStat) ∧
      (s2.current_task ≠ some t2 → t2 ∈ s2.task_list →
        mu_time_follows (s2.fireTime t2) n2 = false →
        mu_sched_get_task_status s2 n2 t2 = TaskStatus.runnableStat) ∧
      (s2.current_task ≠ some t2 → t2 ∈ s2.task_list →
        mu_time_follows (s2.fireTime t2) n2 = true →
        mu_sched_get_task_status s2 n2 t2 = TaskStatus.scheduledStat))) :=
  ⟨by decide, status_runnable_at_now exSched 5 1000 (by decide)⟩

/-- C4 counterexample: in the concrete idle state (empty queue, empty
ring), `mu_sched_step` invokes the idle task, and during that invocation
the currently-running reference is `some idle_task` — not absent, as the
claim states: `mu_sched_get_current_task` would return the idle task. -/
theorem step_idle_current_not_absent :
    (mu_sched_step exSched 1000).invoked = exSched.idle_task ∧
    (mu_sched_step exSched 1000).currentDuringCall = some exSched.idle_task ∧
    (mu_sched_step exSched 1000).currentDuringCall ≠ none := by
  refine ⟨by decide, by decide, by decide⟩

/-- C4 (amended): during a step the currently-running reference points at
the invoked task — the idle task included, when the idle task is invoked —
and it is cleared before the step returns, so between step invocations it
is absent. -/
theorem step_current_marker (s : Sched) (now : Nat) :
    (mu_sched_step s now).currentDuringCall = some ((mu_sched_step s now).invoked) ∧
    (mu_sched_step s now).final.current_task = none :=
  ⟨rfl, rfl⟩

/-- C8: `mu_sched_remove_task` returns the task exactly when its link was
linked (`NULL` otherwise); and scheduling a fresh task with
`mu_sched_task_at` followed by `mu_sched_remove_task` leaves it unlinked
and restores the main queue exactly, touching no other task's time. -/
theorem remove_task_roundtrip (s : Sched) (T : TaskId) (t : Nat)
    (hT : T ∉ s.task_list) :
    (∀ (s2 : Sched) (u : TaskId),
      (u ∈ s2.task_list → mu_sched_remove_task s2 u =
        (some u, { s2 with task_list := s2.task_list.erase u })) ∧
      (u ∉ s2.task_list → mu_sched_remove_task s2 u = (none, s2))) ∧
    ((mu_sched_remove_task (mu_sched_task_at s T t).2 T).1 = some T ∧
     T ∉ (mu_sched_remove_task (mu_sched_task_at s T t).2 T).2.task_list ∧
     (mu_sched_remove_task (mu_sched_task_at s T t).2 T).2.task_list = s.task_list ∧
     (∀ u, u ≠ T →
       (mu_sched_remove_task (mu_sched_task_at s T t).2 T).2.fireTime u =
         s.fireTime u)) := by
  have hgen : ∀ (s2 : Sched) (u : TaskId),
      (u ∈ s2.task_list → mu_sched_remove_task s2 u =
        (some u, { s2 with task_list := s2.task_list.erase u })) ∧
      (u ∉ s2.task_list → mu_sched_remove_task s2 u = (none, s2)) := by
    intro s2 u
    constructor
    · intro hm
      unfold mu_sched_remove_task
      rw [if_pos hm]
    · intro hm
      unfold mu_sched_remove_task
      rw [if_neg hm]
  refine ⟨hgen, ?_⟩
  set s1 := (mu_sched_task_at s T t).2 with hs1
  have hfteq : ∀ u, u ≠ T → s1.fireTime u = s.fireTime u := by
    intro u hu
    show (mu_task_set_time s T t).fireTime u = _
    unfold mu_task_set_time
    simp [hu]
  have herase : (mu_task_set_time s T t).task_list.erase T = s.task_list := by
    show s.task_list.erase T = s.task_list
    exact List.erase_of_not_mem hT
  have hq : s1.task_list =
      s.task_list.takeWhile
        (fun x => !(mu_time_precedes (s1.fireTime T) (s1.fireTime x))) ++
      T :: s.task_list.dropWhile
        (fun x => !(mu_time_precedes (s1.fireTime T) (s1.fireTime x))) := by
    show enqueue_ordered (mu_task_set_time s T t).fireTime
        ((mu_task_set_time s T t).fireTime T) T
        ((mu_task_set_time s T t).task_list.erase T) = _
    rw [herase, enqueue_ordered_eq]
    rfl
  have hmem : T ∈ s1.task_list := mem_enqueue_ordered _ _ _ _
  have hTP : T ∉ s.task_list.takeWhile
      (fun x => !(mu_time_precedes (s1.fireTime T) (s1.fireTime x))) := by
    intro hmemP
    exact hT ((List.takeWhile_prefix _).sublist.mem hmemP)
  have hrem : (mu_sched_remove_task s1 T).2.task_list = s.task_list := by
    rw [(hgen s1 T).1 hmem]
    show s1.task_list.erase T = s.task_list
    rw [hq, List.erase_append_right _ hTP, List.erase_cons_head,
      List.takeWhile_append_dropWhile]
  refine ⟨?_, ?_, hrem, ?_⟩
  · rw [(hgen s1 T).1 hmem]
  · rw [hrem]
    exact hT
  · intro u hu
    rw [(hgen s1 T).1 hmem]
    exact hfteq u hu

/-- Witness for C8: scheduling fresh task 5 at 1150 into the two-task queue
and removing it restores the queue `[1, 2]`. -/
theorem remove_task_roundtrip_witness :
    ((5 : TaskId) ∉ exSchedQ.task_list) ∧
    ((∀ (s2 : Sched) (u : TaskId),
      (u ∈ s2.task_list → mu_sched_remove_task s2 u =
        (some u, { s2 with task_list := s2.task_list.erase u })) ∧
      (u ∉ s2.task_list → mu_sched_remove_task s2 u = (none, s2))) ∧
    ((mu_sched_remove_task (mu_sched_task_at exSchedQ 5 1150).2 5).1 = some 5 ∧
     (5 : TaskId) ∉ (mu_sched_remove_task (mu_sched_task_at exSchedQ 5 1150).2 5).2.task_list ∧
     (mu_sched_remove_task (mu_sched_task_at exSchedQ 5 1150).2 5).2.task_list =
       exSchedQ.task_list ∧
     (∀ u, u ≠ 5 →
       (mu_sched_remove_task (mu_sched_task_at exSchedQ 5 1150).2 5).2.fireTime u =
         exSchedQ.fireTime u))) :=
  ⟨by decide, remove_task_roundtrip exSchedQ 5 1150 (by decide)⟩

/-- C1: `mu_sched_task_at(T, t1)` then `mu_sched_task_at(T, t2)` yields a
main queue containing `T` exactly once, with fire-time `t2` (reduced to the
timestamp width); more generally, any sequence of foreground operations
keeps every task present in the main queue at most once. -/
theorem task_at_twice_unique (s : Sched) (T : TaskId) (t1 t2 : Nat)
    (hnd : s.task_list.Nodup) :
    ((mu_sched_task_at (mu_sched_task_at s T t1).2 T t2).2.task_list.count T = 1 ∧
     (mu_sched_task_at (mu_sched_task_at s T t1).2 T t2).2.fireTime T =
       t2 % TIME_MOD) ∧
    (∀ (ops : List FgOp) (u : TaskId),
      (applyFgOps ops s).task_list.count u ≤ 1) := by
  refine ⟨⟨?_, ?_⟩, ?_⟩
  · set s1 := (mu_sched_task_at s T t1).2 with hs1
    have hnd1 : s1.task_list.Nodup := by
      have h' : (mu_task_set_time s T t1).task_list.Nodup := hnd
      exact queue_task_nodup h' T
    have hperm : (mu_sched_task_at s1 T t2).2.task_list.Perm
        (T :: (mu_task_set_time s1 T t2).task_list.erase T) :=
      enqueue_ordered_perm _ _ _ _
    rw [hperm.count_eq]
    have : ((mu_task_set_time s1 T t2).task_list.erase T).count T = 0 := by
      show (s1.task_list.erase T).count T = 0
      rw [List.count_erase_self]
      have := List.nodup_iff_count_le_one.mp hnd1 T
      omega
    rw [List.count_cons_self, this]
  · show (mu_task_set_time (mu_sched_task_at s T t1).2 T t2).fireTime T = _
    unfold mu_task_set_time
    simp
  · intro ops u
    exact List.nodup_iff_count_le_one.mp (applyFgOps_nodup hnd ops) u

/-- C2: `queue_task` — the single insertion path of every foreground
scheduling operation — keeps the main queue sorted by the wrap-safe
"precedes" relation over fire-times, and inserts by scanning from the
head, stopping at the first element whose fire-time the new task's
fire-time strictly precedes, and inserting before it; consequently no
element placed after the new task carries an equal fire-time, so tasks
with equal fire-times stay in insertion order.  The half-window hypotheses
reflect spec §3 (tasks are never scheduled further than half the window
apart). -/
theorem queue_task_sorted_insertion (s : Sched) (T : TaskId) (base : Nat)
    (hsort : chainSorted s.fireTime s.task_list)
    (hwin : ∀ x ∈ s.task_list, timeSub (s.fireTime x) base < HALF_WINDOW)
    (hwT : timeSub (s.fireTime T) base < HALF_WINDOW) :
    chainSorted s.fireTime (queue_task s T).2.task_list ∧
    (queue_task s T).2.task_list =
      (s.task_list.erase T).takeWhile
        (fun x => !(mu_time_precedes (s.fireTime T) (s.fireTime x))) ++
      T :: (s.task_list.erase T).dropWhile
        (fun x => !(mu_time_precedes (s.fireTime T) (s.fireTime x))) ∧
    ∀ x ∈ (s.task_list.erase T).dropWhile
        (fun x => !(mu_time_precedes (s.fireTime T) (s.fireTime x))),
      s.fireTime x ≠ s.fireTime T := by
  have hsE : chainSorted s.fireTime (s.task_list.erase T) :=
    chainSorted_erase hwin hsort T
  refine ⟨chainSorted_enqueue s.fireTime T hsE, enqueue_ordered_eq _ _ _ _, ?_⟩
  intro x hx
  set ft := s.fireTime with hft
  set p : TaskId → Bool := fun x => !(mu_time_precedes (ft T) (ft x)) with hp
  have hxl : x ∈ s.task_list.erase T := (List.dropWhile_suffix p).sublist.mem hx
  have hsS : chainSorted ft ((s.task_list.erase T).dropWhile p) :=
    List.Chain'.suffix hsE (List.dropWhile_suffix p)
  cases hS : (s.task_list.erase T).dropWhile p with
  | nil =>
    rw [hS] at hx
    cases hx
  | cons y S' =>
    have hpy : p y = false := by
      have hh := List.head?_dropWhile_not p (s.task_list.erase T)
      rw [hS] at hh
      simpa using hh
    have hpyT : mu_time_precedes (ft T) (ft y) = true := by
      simpa [hp] using hpy
    have hWS : ∀ z ∈ y :: S', timeSub (ft z) base < HALF_WINDOW := by
      intro z hz
      refine hwin z ((List.erase_sublist T s.task_list).mem
        ((List.dropWhile_suffix p).sublist.mem ?_))
      rw [hS]
      exact hz
    have hkey : timeSub (ft T) base < timeSub (ft y) base :=
      (mu_time_precedes_iff_lt hwT (hWS y (List.mem_cons_self y S'))).mp hpyT
    have hsYS : chainSorted ft (y :: S') := hS ▸ hsS
    rw [chainSorted_iff_keys ft base (y :: S') hWS,
      List.chain'_iff_pairwise] at hsYS
    have hxYS : x ∈ y :: S' := hS ▸ hx
    have hyx : timeSub (ft y) base ≤ timeSub (ft x) base := by
      rcases List.mem_cons.mp hxYS with rfl | hx'
      · exact le_refl _
      · simp only [List.map_cons, List.pairwise_cons] at hsYS
        exact hsYS.1 _ (List.mem_map_of_mem (timeKey ft base) hx')
    intro heq
    rw [heq] at hyx
    omega

/-- Witness for C2: inserting task 5 (fire-time 0 ⇒ it precedes both
queued fire-times relative to base 0) into the sorted queue `[1, 2]`. -/
theorem queue_task_sorted_insertion_witness :
    (chainSorted exSchedQ.fireTime exSchedQ.task_list ∧
     (∀ x ∈ exSchedQ.task_list, timeSub (exSchedQ.fireTime x) 0 < HALF_WINDOW) ∧
     timeSub (exSchedQ.fireTime 5) 0 < HALF_WINDOW) ∧
    (chainSorted exSchedQ.fireTime (queue_task exSchedQ 5).2.task_list ∧
     (queue_task exSchedQ 5).2.task_list =
       (exSchedQ.task_list.erase 5).takeWhile
         (fun x => !(mu_time_precedes (exSchedQ.fireTime 5) (exSchedQ.fireTime x))) ++
       5 :: (exSchedQ.task_list.erase 5).dropWhile
         (fun x => !(mu_time_precedes (exSchedQ.fireTime 5) (exSchedQ.fireTime x))) ∧
     ∀ x ∈ (exSchedQ.task_list.erase 5).dropWhile
         (fun x => !(mu_time_precedes (exSchedQ.fireTime 5) (exSchedQ.fireTime x))),
       exSchedQ.fireTime x ≠ exSchedQ.fireTime 5) :=
  ⟨⟨by
      have h12 : exSchedQ.task_list = [1, 2] := rfl
      unfold chainSorted
      rw [h12, List.chain'_cons]
      exact ⟨by decide, by simp⟩, by decide, by decide⟩,
    queue_task_sorted_insertion exSchedQ 5 0
      (by
        have h12 : exSchedQ.task_list = [1, 2] := rfl
        unfold chainSorted
        rw [h12, List.chain'_cons]
        exact ⟨by decide, by simp⟩)
      (by decide) (by decide)⟩

/-- C3: `mu_sched_step` first transfers every pending ISR-ring task into
the main queue — in ISR enqueue order (the ring contents, oldest first),
each placed by the ordered-insertion `queue_task` — leaving the ring
empty, and only then examines the head of the drained queue: if the head's
fire-time does not follow `now` it pops and invokes exactly that task,
otherwise it invokes the idle task and pops nothing; at most one
main-queue task is consumed, and the step returns NONE. -/
theorem step_drains_then_runs_head (s : Sched) (now : Nat)
    (hwf : s.irq_task_queue.Wf) :
    (mu_sched_step s now).err = SchedErr.noErr ∧
    (mu_sched_step s now).final.irq_task_queue.count = 0 ∧
    (drainedQueue s = [] →
      (mu_sched_step s now).invoked = s.idle_task ∧
      (mu_sched_step s now).final.task_list = []) ∧
    (∀ (h : TaskId) (rest : List TaskId), drainedQueue s = h :: rest →
      (mu_time_follows (s.fireTime h) now = false →
        (mu_sched_step s now).invoked = h ∧
        (mu_sched_step s now).final.task_list = rest) ∧
      (mu_time_follows (s.fireTime h) now = true →
        (mu_sched_step s now).invoked = s.idle_task ∧
        (mu_sched_step s now).final.task_list = h :: rest)) ∧
    (drainedQueue s).length ≤ (mu_sched_step s now).final.task_list.length + 1 := by
  obtain ⟨hlist, hcnt0, hft, hcur, hidle, hcap, hwf'⟩ :=
    drainLoop_spec s.irq_task_queue.capacity s hwf (le_of_lt (Spsc.count_lt hwf))
  set s1 := drainLoop s.irq_task_queue.capacity s with hs1
  have hinv : (mu_sched_step s now).invoked = (get_runnable_task s1 now).1 := rfl
  have hfin : (mu_sched_step s now).final.task_list = (get_runnable_task s1 now).2 := rfl
  have hdq : s1.task_list = drainedQueue s := hlist
  refine ⟨rfl, hcnt0, ?_, ?_, ?_⟩
  · intro hnil
    have hq : s1.task_list = [] := by rw [hdq, hnil]
    rw [hinv, hfin]
    unfold get_runnable_task
    rw [hq, hidle]
    exact ⟨rfl, rfl⟩
  · intro h rest hcons
    have hq : s1.task_list = h :: rest := by rw [hdq, hcons]
    constructor
    · intro hrun
      rw [hinv, hfin]
      simp [get_runnable_task, hq, hft, hrun]
    · intro hwait
      rw [hinv, hfin]
      simp [get_runnable_task, hq, hft, hidle, hwait]
  · rw [hfin, ← hdq]
    cases hq : s1.task_list with
    | nil => simp [get_runnable_task, hq]
    | cons h rest =>
      by_cases hbf : mu_time_follows (s1.fireTime h) now = false
      · simp [get_runnable_task, hq, hbf]
      · simp only [Bool.not_eq_false] at hbf
        simp [get_runnable_task, hq, hbf]

/-- Witness for C3 at the concrete idle state (empty ring: the drained
queue is the empty main queue, so the idle task is invoked). -/
theorem step_drains_then_runs_head_witness :
    exSched.irq_task_queue.Wf ∧
    ((mu_sched_step exSched 1000).err = SchedErr.noErr ∧
    (mu_sched_step exSched 1000).final.irq_task_queue.count = 0 ∧
    (drainedQueue exSched = [] →
      (mu_sched_step exSched 1000).invoked = exSched.idle_task ∧
      (mu_sched_step exSched 1000).final.task_list = []) ∧
    (∀ (h : TaskId) (rest : List TaskId), drainedQueue exSched = h :: rest →
      (mu_time_follows (exSched.fireTime h) 1000 = false →
        (mu_sched_step exSched 1000).invoked = h ∧
        (mu_sched_step exSched 1000).final.task_list = rest) ∧
      (mu_time_follows (exSched.fireTime h) 1000 = true →
        (mu_sched_step exSched 1000).invoked = exSched.idle_task ∧
        (mu_sched_step exSched 1000).final.task_list = h :: rest)) ∧
    (drainedQueue exSched).length ≤
      (mu_sched_step exSched 1000).final.task_list.length + 1) :=
  ⟨by decide, step_drains_then_runs_head exSched 1000 (by decide)⟩

/-- C9: every `mu_sched_isr_task_*` variant sets the task's fire-time and
pushes the task onto the ISR ring without modifying the main queue; the
call returns FULL — leaving the ring contents unchanged — exactly when the
ring already holds its usable capacity (capacity − 1 items), and otherwise
appends the task to the ring; and after one `mu_sched_step` drains the
ring, any capacity − 1 further ISR enqueues all succeed. -/
theorem isr_task_ring_spec (s : Sched) (T : TaskId) (now at_ : Nat) (d : Int)
    (hwf : s.irq_task_queue.Wf) :
    ((mu_sched_isr_task_now s T now).2.task_list = s.task_list ∧
     (mu_sched_isr_task_at s T at_).2.task_list = s.task_list ∧
     (mu_sched_isr_task_in s T now d).2.task_list = s.task_list) ∧
    ((mu_sched_isr_task_now s T now).2.fireTime T = now % TIME_MOD ∧
     (mu_sched_isr_task_at s T at_).2.fireTime T = at_ % TIME_MOD ∧
     (mu_sched_isr_task_in s T now d).2.fireTime T = mu_time_offset now d) ∧
    ((mu_sched_isr_task_now s T now).1 = SchedErr.fullErr ↔
      s.irq_task_queue.count = s.irq_task_queue.capacity - 1) ∧
    ((mu_sched_isr_task_now s T now).1 = SchedErr.fullErr →
      (mu_sched_isr_task_now s T now).2.irq_task_queue.contents =
        s.irq_task_queue.contents) ∧
    ((mu_sched_isr_task_now s T now).1 = SchedErr.noErr →
      (mu_sched_isr_task_now s T now).2.irq_task_queue.contents =
        s.irq_task_queue.contents ++ [T]) ∧
    (∀ ts : List TaskId, ts.length ≤ s.irq_task_queue.capacity - 1 →
      isrEnqueueAll (mu_sched_step s now).final now ts ≠ none) := by
  have hring : ∀ v : Nat, (mu_task_set_time s T v).irq_task_queue = s.irq_task_queue :=
    fun v => rfl
  have hqueue : ∀ (s0 : Sched) (u : TaskId), (queue_isr_task s0 u).2.task_list = s0.task_list := by
    intro s0 u
    unfold queue_isr_task
    cases mu_spsc_put s0.irq_task_queue u <;> rfl
  have herr : ∀ (s0 : Sched) (u : TaskId),
      ((queue_isr_task s0 u).1 = SchedErr.fullErr ↔ mu_spsc_put s0.irq_task_queue u = none) := by
    intro s0 u
    unfold queue_isr_task
    cases mu_spsc_put s0.irq_task_queue u with
    | none => simp
    | some q => simp
  have hftq : ∀ (s0 : Sched) (u : TaskId), (queue_isr_task s0 u).2.fireTime = s0.fireTime := by
    intro s0 u
    unfold queue_isr_task
    cases mu_spsc_put s0.irq_task_queue u <;> rfl
  refine ⟨⟨hqueue _ T, hqueue _ T, hqueue _ T⟩, ⟨?_, ?_, ?_⟩, ?_, ?_, ?_, ?_⟩
  · rw [show (mu_sched_isr_task_now s T now).2.fireTime =
        (mu_task_set_time s T now).fireTime from hftq _ T]
    unfold mu_task_set_time
    simp
  · rw [show (mu_sched_isr_task_at s T at_).2.fireTime =
        (mu_task_set_time s T at_).fireTime from hftq _ T]
    unfold mu_task_set_time
    simp
  · rw [show (mu_sched_isr_task_in s T now d).2.fireTime =
        (mu_task_set_time s T (mu_time_offset now d)).fireTime from hftq _ T]
    unfold mu_task_set_time
    simp only [if_pos rfl]
    exact Nat.mod_eq_of_lt (mu_time_offset_lt _ _)
  · rw [show (mu_sched_isr_task_now s T now).1 =
        (queue_isr_task (mu_task_set_time s T now) T).1 from rfl]
    rw [herr _ T, hring now]
    exact mu_spsc_put_full_iff hwf T
  · intro hfull
    rw [show (mu_sched_isr_task_now s T now).1 =
        (queue_isr_task (mu_task_set_time s T now) T).1 from rfl] at hfull
    rw [herr _ T, hring now] at hfull
    show (queue_isr_task (mu_task_set_time s T now) T).2.irq_task_queue.contents = _
    unfold queue_isr_task
    rw [hring now, hfull]
    rfl
  · intro hok
    have hnotfull : mu_spsc_put s.irq_task_queue T ≠ none := by
      intro habs
      rw [show (mu_sched_isr_task_now s T now).1 =
          (queue_isr_task (mu_task_set_time s T now) T).1 from rfl] at hok
      unfold queue_isr_task at hok
      rw [hring now, habs] at hok
      cases hok
    have hroom : s.irq_task_queue.count < s.irq_task_queue.capacity - 1 := by
      have hne : s.irq_task_queue.count ≠ s.irq_task_queue.capacity - 1 :=
        fun h => hnotfull ((mu_spsc_put_full_iff hwf T).mpr h)
      have := Spsc.count_lt hwf
      omega
    obtain ⟨q', hput, -, -, hcont, -, -⟩ := mu_spsc_put_spec hwf T hroom
    show (queue_isr_task (mu_task_set_time s T now) T).2.irq_task_queue.contents = _
    unfold queue_isr_task
    rw [hring now, hput]
    exact hcont
  · intro ts hts
    obtain ⟨-, hcnt0, -, -, -, hcap, hwf'⟩ :=
      drainLoop_spec s.irq_task_queue.capacity s hwf (le_of_lt (Spsc.count_lt hwf))
    have hfin : (mu_sched_step s now).final.irq_task_queue =
        (drainLoop s.irq_task_queue.capacity s).irq_task_queue := rfl
    apply isrEnqueueAll_ne_none
    · rw [hfin]
      exact hwf'
    · rw [hfin, hcnt0, hcap]
      omega

/-- Witness for C9 at the concrete idle state (capacity 8: up to 7
enqueues succeed after a drain). -/
theorem isr_task_ring_spec_witness :
    exSched.irq_task_queue.Wf ∧
    (((mu_sched_isr_task_now exSched 3 1000).2.task_list = exSched.task_list ∧
      (mu_sched_isr_task_at exSched 3 1200).2.task_list = exSched.task_list ∧
      (mu_sched_isr_task_in exSched 3 1000 5).2.task_list = exSched.task_list) ∧
    ((mu_sched_isr_task_now exSched 3 1000).2.fireTime 3 = 1000 % TIME_MOD ∧
     (mu_sched_isr_task_at exSched 3 1200).2.fireTime 3 = 1200 % TIME_MOD ∧
     (mu_sched_isr_task_in exSched 3 1000 5).2.fireTime 3 = mu_time_offset 1000 5) ∧
    ((mu_sched_isr_task_now exSched 3 1000).1 = SchedErr.fullErr ↔
      exSched.irq_task_queue.count = exSched.irq_task_queue.capacity - 1) ∧
    ((mu_sched_isr_task_now exSched 3 1000).1 = SchedErr.fullErr →
      (mu_sched_isr_task_now exSched 3 1000).2.irq_task_queue.contents =
        exSched.irq_task_queue.contents) ∧
    ((mu_sched_isr_task_now exSched 3 1000).1 = SchedErr.noErr →
      (mu_sched_isr_task_now exSched 3 1000).2.irq_task_queue.contents =
        exSched.irq_task_queue.contents ++ [3]) ∧
    (∀ ts : List TaskId, ts.length ≤ exSched.irq_task_queue.capacity - 1 →
      isrEnqueueAll (mu_sched_step exSched 1000).final 1000 ts ≠ none)) :=
  ⟨by decide, isr_task_ring_spec exSched 3 1000 1200 5 (by decide)⟩

/-- Witness for C1: scheduling task 5 at 1100 then at 1050 in the two-task
queue leaves exactly one copy of 5, at time 1050. -/
theorem task_at_twice_unique_witness :
    exSchedQ.task_list.Nodup ∧
    (((mu_sched_task_at (mu_sched_task_at exSchedQ 5 1100).2 5 1050).2.task_list.count 5 = 1 ∧
      (mu_sched_task_at (mu_sched_task_at exSchedQ 5 1100).2 5 1050).2.fireTime 5 =
        1050 % TIME_MOD) ∧
     (∀ (ops : List FgOp) (u : TaskId),
       (applyFgOps ops exSchedQ).task_list.count u ≤ 1)) :=
  ⟨by decide, task_at_twice_unique exSchedQ 5 1100 1050 (by decide)⟩

end Mulib
